import Mathlib

/-!
Verification of the asmbl incremental build engine.

This file gives a shallow embedding of the core crate of the repository
(crates/core): the target template resolver (targets_spec.rs), the recipe
compiler (recipe/mod.rs, recipe/parser.rs), unit decomposition (unit.rs),
the path relativiser (relativiser.rs and the identical UnitBuilder::relativise
in lib.rs), and the task graph builder and staleness evaluator
(TaskList::new and TaskList::retain_out_of_date in lib.rs).

Machine times are modelled as natural numbers.  The file system is modelled
as a function from path strings to a stat outcome.
-/

/-- Modification times (SystemTime) are modelled as naturals. -/
abbrev Time := Nat

/-- Outcome of fs::metadata followed by .modified() on one path:
the file may be absent (ErrorKind::NotFound), metadata may fail with some
other I/O error, or metadata may succeed with modified() either failing
(statOk none) or producing a time (statOk (some t)). -/
inductive FileStat where
  | notFound : FileStat
  | ioErr : FileStat
  | statOk : Option Time → FileStat
deriving DecidableEq

/-- An abstract file system: every path has a stat outcome. -/
abbrev FS := String → FileStat

/- ===================================================================
   targets_spec.rs : TargetSpec::resolve
   =================================================================== -/

/-- ResolveError from targets_spec.rs. -/
inductive ResolveError where
  | invalidMarkerCharacter : ResolveError
  | missingMarkerCharacter : ResolveError
  | noInput : ResolveError
  | noFileStem : ResolveError
  | nonUnicodeInputPath : ResolveError
deriving DecidableEq

/-- The file stem of an input path: either valid UTF-8 or not
(OsStr::to_str failing). -/
inductive Stem where
  | utf8 : String → Stem
  | nonUnicode : Stem
deriving DecidableEq

/-- The input path passed to TargetSpec::resolve, abstracted to its
file_stem() result: none models a path with no stem. -/
abbrev InputPath := Option Stem

/-- PathBuf::push of an expanded (relative or absolute) string onto the
target directory: an absolute path replaces the receiver, a relative one
is appended with a separator. -/
def pathPushStr (pfx : String) (p : String) : String :=
  if p.data.head? = some '/' then p
  else if pfx = "" then p
  else pfx ++ "/" ++ p

/-- The marker-expansion scan of TargetSpec::resolve (targets_spec.rs,
lines 32-51): walk the spec characters; on % consume one more character;
%% emits %, %f emits the input file stem, end of string and any other
character are errors. -/
def expandScan : List Char → Option InputPath → String → Except ResolveError String
  | [], _, acc => .ok acc
  | '%' :: rest, input, acc =>
    match rest with
    | [] => .error ResolveError.missingMarkerCharacter
    | '%' :: rs => expandScan rs input (acc.push '%')
    | 'f' :: rs =>
      match input with
      | none => .error ResolveError.noInput
      | some stem =>
        match stem with
        | none => .error ResolveError.noFileStem
        | some Stem.nonUnicode => .error ResolveError.nonUnicodeInputPath
        | some (Stem.utf8 s) => expandScan rs input (acc ++ s)
    | _ :: _ => .error ResolveError.invalidMarkerCharacter
  | c :: rest, input, acc => expandScan rest input (acc.push c)

/-- TargetSpec::resolve (targets_spec.rs lines 23-56): expand the spec
string against the optional input, then push the result onto the target
directory. -/
def targetSpecResolve (spec : String) (pfx : String) (input : Option InputPath) :
    Except ResolveError String :=
  match expandScan spec.data input ("") with
  | .error e => .error e
  | .ok path => .ok (pathPushStr pfx path)

/-- The replacement described by the specification sentence: scanning left
to right, every %% is replaced by % and every %f by the file stem of the
input, with the error cases of section 4.2 of the specification. -/
def specReplaceMarkers : List Char → Option InputPath → Except ResolveError String
  | [], _ => .ok ("")
  | '%' :: rest, input =>
    match rest with
    | [] => .error ResolveError.missingMarkerCharacter
    | '%' :: rs =>
      (specReplaceMarkers rs input).map (fun t => ("%") ++ t)
    | 'f' :: rs =>
      match input with
      | none => .error ResolveError.noInput
      | some none => .error ResolveError.noFileStem
      | some (some Stem.nonUnicode) => .error ResolveError.nonUnicodeInputPath
      | some (some (Stem.utf8 s)) =>
        (specReplaceMarkers rs input).map (fun t => s ++ t)
    | _ :: _ => .error ResolveError.invalidMarkerCharacter
  | c :: rest, input => (specReplaceMarkers rest input).map (fun t => (String.mk [c]) ++ t)

theorem expandScan_acc (cs : List Char) (input : Option InputPath) (acc : String) :
    expandScan cs input acc = (specReplaceMarkers cs input).map (fun t => acc ++ t) := by
  induction cs, input, acc using expandScan.induct with
  | _ =>
    simp_all [expandScan, specReplaceMarkers, Except.map, String.push]
    try (split <;> simp_all [String.append_assoc, String.push])
    try (apply String.ext; simp [String.append, List.append_assoc])

/-- Claim C5: TargetSpec::resolve returns the prefix joined with the spec
string in which every %% is replaced by % and every %f by the file stem of
the input (the left-to-right replacement specReplaceMarkers), and fails
with NoInput when %f occurs with no input, NoFileStem when the input has
no stem, NonUnicodeInputPath when the stem is not UTF-8,
MissingMarkerCharacter on a trailing lone %, and InvalidMarkerCharacter
when % is followed by any other character. -/
theorem c5_targetSpecResolve_correct :
    (∀ (spec pfx : String) (input : Option InputPath),
      targetSpecResolve spec pfx input =
        (specReplaceMarkers spec.data input).map (pathPushStr pfx)) ∧
    targetSpecResolve ("%f.o") ("out") none = .error ResolveError.noInput ∧
    targetSpecResolve ("%f.o") ("out") (some none) = .error ResolveError.noFileStem ∧
    targetSpecResolve ("%f.o") ("out") (some (some Stem.nonUnicode)) =
      .error ResolveError.nonUnicodeInputPath ∧
    targetSpecResolve ("a%") ("out") (some (some (Stem.utf8 ("x")))) =
      .error ResolveError.missingMarkerCharacter ∧
    targetSpecResolve ("%x") ("out") (some (some (Stem.utf8 ("x")))) =
      .error ResolveError.invalidMarkerCharacter ∧
    targetSpecResolve ("%%f%f.o") ("out") (some (some (Stem.utf8 ("a")))) =
      .ok ("out/%fa.o") := by
  refine ⟨fun spec pfx input => ?_, by rfl, by rfl, by rfl, by rfl, by rfl, by rfl⟩
  rw [targetSpecResolve, expandScan_acc]
  cases specReplaceMarkers spec.data input <;> simp [Except.map]

/- ===================================================================
   recipe/mod.rs and recipe/parser.rs : the recipe compiler
   =================================================================== -/

/-- Variable from recipe/mod.rs. -/
inductive Variable where
  | targets : Variable
  | target : Nat → Variable
  | inputs : Variable
  | input : Nat → Variable
  | other : String → Variable
deriving DecidableEq

/-- ArgElement from recipe/mod.rs (brk models the Break separator). -/
inductive ArgElement where
  | str : String → ArgElement
  | var : Variable → ArgElement
  | brk : ArgElement
deriving DecidableEq

/-- The numeric character class of recipe/parser.rs. -/
def isNumericCh (c : Char) : Bool := '0' ≤ c && c ≤ '9'

/-- The alphanumeric character class of recipe/parser.rs (digits, letters,
underscore and hyphen). -/
def isAlnumCh (c : Char) : Bool :=
  ('0' ≤ c && c ≤ '9') || ('a' ≤ c && c ≤ 'z') || ('A' ≤ c && c ≤ 'Z') || c = '_' || c = '-'

/-- nom take_while1: succeeds only when at least one character matches. -/
def takeWhile1 (p : Char → Bool) (i : List Char) : Option (List Char × List Char) :=
  match i.span p with
  | (tk, rest) => if tk.isEmpty then none else some (tk, rest)

/-- nom tag for a literal character sequence. -/
def parseTag (t : List Char) (i : List Char) : Option (List Char × List Char) :=
  if i.take t.length = t then some (t, i.drop t.length) else none

/-- The variable_name alternation of recipe/parser.rs: tag "<", tag "@",
or a non-empty alphanumeric run. -/
def parseVarName (i : List Char) : Option (List Char × List Char) :=
  (parseTag ['<'] i).orElse (fun _ =>
    (parseTag ['@'] i).orElse (fun _ => takeWhile1 isAlnumCh i))

/-- The numeric value of a decimal digit run; usize::from_str_radix's
overflow failure is modelled in parseIdx by the usizeMax bound. -/
def digitsToNat (ds : List Char) : Nat :=
  ds.foldl (fun n c => n * 10 + (c.toNat - ('0').toNat)) 0

/-- usize::MAX on the 64-bit targets the crate builds for. -/
def usizeMax : Nat := 2 ^ 64 - 1

/-- The index parser of recipe/parser.rs (lines 22-30): a bracketed
non-empty digit run converted with map_res(usize::from_str_radix), which
fails (failing the whole index parser) when the value exceeds
usize::MAX. -/
def parseIdx (i : List Char) : Option (Nat × List Char) :=
  match i with
  | '[' :: r =>
    match takeWhile1 isNumericCh r with
    | some (ds, r2) =>
      if digitsToNat ds ≤ usizeMax then
        match r2 with
        | ']' :: r3 => some (digitsToNat ds, r3)
        | _ => none
      else none
    | none => none
  | _ => none

/-- The variable parser of recipe/parser.rs (lines 40-58): a dollar sign,
a variable name, an optional bracketed index, dispatched on the name. -/
def parseVar (i : List Char) : Option (Variable × List Char) :=
  match i with
  | '$' :: r =>
    match parseVarName r with
    | none => none
    | some (name, r2) =>
      let ir : Option Nat × List Char :=
        match parseIdx r2 with
        | some (n, rr) => (some n, rr)
        | none => (none, r2)
      if name = ['@'] ∨ name = ("targets").data then
        match ir.1 with
        | some n => some (Variable.target n, ir.2)
        | none => some (Variable.targets, ir.2)
      else if name = ['<'] ∨ name = ("inputs").data then
        match ir.1 with
        | some n => some (Variable.input n, ir.2)
        | none => some (Variable.inputs, ir.2)
      else
        some (Variable.other (String.mk name), ir.2)
  | _ => none

/-- The element parser: a variable, or a non-empty run of characters other
than the dollar sign. -/
def parseElem (i : List Char) : Option (ArgElement × List Char) :=
  match parseVar i with
  | some (v, r) => some (ArgElement.var v, r)
  | none =>
    match takeWhile1 (fun c => c ≠ '$') i with
    | some (s, r) => some (ArgElement.str (String.mk s), r)
    | none => none

/-- nom many1 over parseElem; a successful parseElem always consumes at
least one character, so input length is an exact fuel. -/
def parseElemsGo (fuel : Nat) (i : List Char) (acc : List ArgElement) :
    List ArgElement × List Char :=
  match fuel with
  | 0 => (acc.reverse, i)
  | fuel + 1 =>
    match parseElem i with
    | none => (acc.reverse, i)
    | some (e, r) => parseElemsGo fuel r (e :: acc)

/-- parse_elements of recipe/parser.rs: many1(element); any unconsumed
remainder is discarded, and an empty element list is the failure case. -/
def parseElems (i : List Char) : Option (List ArgElement) :=
  match parseElemsGo i.length i [] with
  | (es, _) => if es.isEmpty then none else some es

/-- RecipeParseError from recipe/mod.rs. -/
inductive RecipeParseErr where
  | parseArgErr : RecipeParseErr
  | parseElemErr : RecipeParseErr
  | notEnoughArgs : RecipeParseErr
deriving DecidableEq

/-- Recipe::new (recipe/mod.rs lines 68-79): parse the elements of each
argument and append a Break sentinel after each one. -/
def recipeNew (args : List String) : Except RecipeParseErr (List ArgElement) :=
  if args.length = 0 then .error RecipeParseErr.notEnoughArgs
  else
    args.foldlM (fun acc arg =>
      match parseElems arg.data with
      | none => .error RecipeParseErr.parseElemErr
      | some es => .ok (acc ++ es ++ [ArgElement.brk])) []

/-- RecipePrepareError from recipe/mod.rs (NonUnicodePath and NoSuchCmd
arise only in the OS-dependent parts, which are outside this model). -/
inductive RecipePrepareErr where
  | nonUnicodePath : RecipePrepareErr
  | notEnoughArgs : RecipePrepareErr
  | noSuchCmd : String → RecipePrepareErr
  | inputIndexOutOfRange : Nat → RecipePrepareErr
  | targetIndexOutOfRange : Nat → RecipePrepareErr
  | unrecognisedBinding : String → RecipePrepareErr
deriving DecidableEq

/-- The variable-expansion arm of Recipe::prepare (recipe/mod.rs lines
110-128): indexed input and target references are bounds-checked, and the
unindexed forms join with spaces. -/
def renderVar (v : Variable) (targets inputs : List String) :
    Except RecipePrepareErr String :=
  match v with
  | Variable.input i =>
    if h : inputs.length ≤ i then .error (RecipePrepareErr.inputIndexOutOfRange i)
    else .ok (inputs.get ⟨i, by omega⟩)
  | Variable.target i =>
    if h : targets.length ≤ i then .error (RecipePrepareErr.targetIndexOutOfRange i)
    else .ok (targets.get ⟨i, by omega⟩)
  | Variable.inputs => .ok (String.intercalate (" ") inputs)
  | Variable.targets => .ok (String.intercalate (" ") targets)
  | Variable.other name => .error (RecipePrepareErr.unrecognisedBinding name)

/-- One element inside the argument-accumulation loop (Break is handled by
the loop itself). -/
def renderElem (targets inputs : List String) : ArgElement → Except RecipePrepareErr String
  | ArgElement.str s => .ok s
  | ArgElement.var v => renderVar v targets inputs
  | ArgElement.brk => .ok ("")

/-- The argument-accumulation loop of Recipe::prepare (recipe/mod.rs lines
104-135): concatenate element expansions until a Break, then start a new
argument; a Break at the very end does not open an empty argument. -/
def renderArgsGo (targets inputs : List String) :
    List ArgElement → String → Except RecipePrepareErr (List String)
  | [], cur => .ok [cur]
  | ArgElement.brk :: rest, cur =>
    if rest.isEmpty then .ok [cur]
    else
      match renderArgsGo targets inputs rest ("") with
      | .error e => .error e
      | .ok tail => .ok (cur :: tail)
  | e :: rest, cur =>
    match renderElem targets inputs e with
    | .error err => .error err
    | .ok s => renderArgsGo targets inputs rest (cur ++ s)

/-- The rendering stage of Recipe::prepare restricted to its pure part:
produce the list of rendered arguments. -/
def renderArgs (targets inputs : List String) (es : List ArgElement) :
    Except RecipePrepareErr (List String) :=
  if es.isEmpty then .ok [] else renderArgsGo targets inputs es ("")

/-- split_first on the rendered arguments (recipe/mod.rs lines 137-139):
the first argument is the command. -/
def extractCmd (args : List String) : Except RecipePrepareErr (String × List String) :=
  match args with
  | [] => .error RecipePrepareErr.notEnoughArgs
  | c :: rest => .ok (c, rest)

theorem takeWhile_all_append (p : Char → Bool) (l r : List Char)
    (h : ∀ c ∈ l, p c = true) : (l ++ r).takeWhile p = l ++ r.takeWhile p := by
  induction l with
  | nil => rfl
  | cons c cs ih =>
    simp only [List.cons_append, List.takeWhile_cons]
    rw [h c (by simp)]
    simp [ih (fun c hc => h c (by simp [hc]))]

theorem dropWhile_all_append (p : Char → Bool) (l r : List Char)
    (h : ∀ c ∈ l, p c = true) : (l ++ r).dropWhile p = r.dropWhile p := by
  induction l with
  | nil => rfl
  | cons c cs ih =>
    simp only [List.cons_append, List.dropWhile_cons]
    rw [h c (by simp)]
    simp [ih (fun c hc => h c (by simp [hc]))]

theorem takeWhile1_all (p : Char → Bool) (l : List Char) (r : List Char)
    (hl : l ≠ []) (h : ∀ c ∈ l, p c = true)
    (hr : ∀ c ∈ r.head?.toList, p c = false) :
    takeWhile1 p (l ++ r) = some (l, r) := by
  have ht : (l ++ r).takeWhile p = l := by
    rw [takeWhile_all_append p l r h]
    cases r with
    | nil => simp
    | cons c cs =>
      have : p c = false := hr c (by simp)
      simp [List.takeWhile_cons, this]
  have hd : (l ++ r).dropWhile p = r := by
    rw [dropWhile_all_append p l r h]
    cases r with
    | nil => simp
    | cons c cs =>
      have : p c = false := hr c (by simp)
      simp [List.dropWhile_cons, this]
  simp [takeWhile1, List.span_eq_take_drop, ht, hd, hl]

/-- Claim C10: when the element parser reads a dollar sign, an
alphanumeric name other than inputs or targets, and a bracketed index
whose value is representable as a usize, it succeeds with
Variable::Other(name): the index is consumed from the input but silently
discarded.  When the digit run exceeds usize::MAX the index parser's
map_res conversion fails and opt(index) backtracks: the result is still
Variable::Other(name) but the bracketed text is left unconsumed. -/
theorem c10_other_variable_discards_index
    (name ds rest : List Char)
    (h1 : name ≠ [])
    (h2 : ∀ c ∈ name, isAlnumCh c = true)
    (h3 : name ≠ ("inputs").data)
    (h4 : name ≠ ("targets").data)
    (h5 : ds ≠ [])
    (h6 : ∀ c ∈ ds, isNumericCh c = true) :
    (digitsToNat ds ≤ usizeMax →
      parseVar ('$' :: (name ++ '[' :: (ds ++ ']' :: rest))) =
        some (Variable.other (String.mk name), rest)) ∧
    (usizeMax < digitsToNat ds →
      parseVar ('$' :: (name ++ '[' :: (ds ++ ']' :: rest))) =
        some (Variable.other (String.mk name), '[' :: (ds ++ ']' :: rest))) := by
  cases name with
  | nil => exact absurd rfl h1
  | cons c0 cs =>
    have hc0 : isAlnumCh c0 = true := h2 c0 (by simp)
    have hlt : c0 ≠ '<' := by intro e; subst e; exact absurd hc0 (by decide)
    have hat : c0 ≠ '@' := by intro e; subst e; exact absurd hc0 (by decide)
    have hname : parseVarName ((c0 :: cs) ++ '[' :: (ds ++ ']' :: rest)) =
        some (c0 :: cs, '[' :: (ds ++ ']' :: rest)) := by
      have htw : takeWhile1 isAlnumCh ((c0 :: cs) ++ '[' :: (ds ++ ']' :: rest)) =
          some (c0 :: cs, '[' :: (ds ++ ']' :: rest)) := by
        refine takeWhile1_all isAlnumCh (c0 :: cs) ('[' :: (ds ++ ']' :: rest))
          (by simp) h2 ?_
        intro c hc
        simp at hc
        subst hc
        decide
      simp only [List.cons_append] at htw
      simp [parseVarName, parseTag, Option.orElse, hlt, hat, htw]
    have htw : takeWhile1 isNumericCh (ds ++ ']' :: rest) = some (ds, ']' :: rest) := by
      refine takeWhile1_all isNumericCh ds (']' :: rest) h5 h6 ?_
      intro c hc
      simp at hc
      subst hc
      decide
    have hne1 : ¬(c0 = '@' ∧ cs = [] ∨ c0 = 't' ∧ cs = ['a', 'r', 'g', 'e', 't', 's']) := by
      rintro (⟨e1, _⟩ | ⟨e1, e2⟩)
      · exact hat e1
      · exact h4 (by subst e1; subst e2; rfl)
    have hne2 : ¬(c0 = '<' ∧ cs = [] ∨ c0 = 'i' ∧ cs = ['n', 'p', 'u', 't', 's']) := by
      rintro (⟨e1, _⟩ | ⟨e1, e2⟩)
      · exact hlt e1
      · exact h3 (by subst e1; subst e2; rfl)
    simp only [List.cons_append] at hname
    constructor
    · intro hle
      have hidx : parseIdx ('[' :: (ds ++ ']' :: rest)) = some (digitsToNat ds, rest) := by
        simp [parseIdx, htw, hle]
      simp [parseVar, hname, hidx, hne1, hne2]
    · intro hgt
      have hidx : parseIdx ('[' :: (ds ++ ']' :: rest)) = none := by
        simp [parseIdx, htw, Nat.not_le.mpr hgt]
      simp [parseVar, hname, hidx, hne1, hne2]

theorem c10_other_variable_discards_index_witness :
    parseVar ('$' :: (['f', 'o', 'o'] ++ '[' :: (['7'] ++ ']' :: ['x']))) =
      some (Variable.other (String.mk ['f', 'o', 'o']), ['x']) ∧
    parseVar ('$' :: (['f', 'o', 'o'] ++ '[' ::
        (("99999999999999999999").data ++ ']' :: ['x']))) =
      some (Variable.other (String.mk ['f', 'o', 'o']),
        '[' :: (("99999999999999999999").data ++ ']' :: ['x'])) :=
  ⟨(c10_other_variable_discards_index ['f', 'o', 'o'] ['7'] ['x']
      (by decide) (by decide) (by decide) (by decide) (by decide) (by decide)).1
      (by decide),
   (c10_other_variable_discards_index ['f', 'o', 'o'] ("99999999999999999999").data ['x']
      (by decide) (by decide) (by decide) (by decide) (by decide) (by decide)).2
      (by decide)⟩

/-- Claim C9: rendering Input(i) yields the i-th input when i is below the
input count and fails with InputIndexOutOfRange(i) otherwise, likewise for
Target(i); in particular a recipe argument $<[2] rendered with exactly two
inputs fails with InputIndexOutOfRange(2). -/
theorem c9_indexed_variable_bounds :
    (∀ (targets inputs : List String) (i : Nat),
      (∀ h : i < inputs.length,
        renderVar (Variable.input i) targets inputs = .ok (inputs.get ⟨i, h⟩)) ∧
      (inputs.length ≤ i →
        renderVar (Variable.input i) targets inputs =
          .error (RecipePrepareErr.inputIndexOutOfRange i)) ∧
      (∀ h : i < targets.length,
        renderVar (Variable.target i) targets inputs = .ok (targets.get ⟨i, h⟩)) ∧
      (targets.length ≤ i →
        renderVar (Variable.target i) targets inputs =
          .error (RecipePrepareErr.targetIndexOutOfRange i))) ∧
    recipeNew [("cc"), ("$<[2]")] =
      .ok [ArgElement.str ("cc"), ArgElement.brk,
           ArgElement.var (Variable.input 2), ArgElement.brk] ∧
    renderArgs [("out.o")] [("a.c"), ("b.c")]
      [ArgElement.str ("cc"), ArgElement.brk,
       ArgElement.var (Variable.input 2), ArgElement.brk] =
      .error (RecipePrepareErr.inputIndexOutOfRange 2) := by
  refine ⟨fun targets inputs i => ⟨fun h => ?_, fun h => ?_, fun h => ?_, fun h => ?_⟩,
    by rfl, by rfl⟩
  · simp [renderVar, Nat.not_le.mpr h]
  · simp [renderVar, h]
  · simp [renderVar, Nat.not_le.mpr h]
  · simp [renderVar, h]

theorem c9_indexed_variable_bounds_witness :
    renderVar (Variable.input 0) [("t.o")] [("a.c"), ("b.c")] = .ok ("a.c") ∧
    renderVar (Variable.input 5) [("t.o")] [("a.c"), ("b.c")] =
      .error (RecipePrepareErr.inputIndexOutOfRange 5) := by
  constructor
  · have h := (c9_indexed_variable_bounds.1 [("t.o")] [("a.c"), ("b.c")] 0).1 (by decide)
    simpa using h
  · exact (c9_indexed_variable_bounds.1 [("t.o")] [("a.c"), ("b.c")] 5).2.1 (by decide)

/- ===================================================================
   unit.rs : PrerequisiteSpec, TaskSpec, Unit::decompose
   =================================================================== -/

/-- EnvSpecValue from env.rs. -/
inductive EnvSpecValue where
  | inherit : EnvSpecValue
  | define : String → EnvSpecValue
deriving DecidableEq

/-- EnvSpec from env.rs. -/
structure EnvSpec where
  name : String
  value : EnvSpecValue
deriving DecidableEq

/-- TargetSpec from targets_spec.rs: an unexpanded output-path string. -/
structure TargetSpec where
  path : String
deriving DecidableEq

/-- TargetsSpec from targets_spec.rs. -/
inductive TargetsSpec where
  | single : TargetSpec → TargetsSpec
  | multi : List TargetSpec → TargetsSpec
deriving DecidableEq

/-- PrerequisiteSpec from unit.rs (lines 8-12): a named path with an
optional flag, or an intra-unit target handle (task index, target index). -/
inductive PrerequisiteSpec where
  | named : String → Bool → PrerequisiteSpec
  | handle : Nat → Nat → PrerequisiteSpec
deriving DecidableEq

/-- TaskSpec from unit.rs (lines 77-84); the recipe is its element list. -/
structure TaskSpec where
  consumes : List PrerequisiteSpec
  depends_on : List PrerequisiteSpec
  not_before : List PrerequisiteSpec
  aggregate : Bool
  env : List EnvSpec
  recipe : List ArgElement
deriving DecidableEq

/-- One task's decomposition inside Unit::decompose (unit.rs lines
219-238): an aggregate task or one consuming at most one input stays
single; otherwise the task is fanned out into one single-input aggregate
task per consumed input, sharing the other fields and the targets. -/
def decomposeTask (targets : TargetsSpec) (task : TaskSpec) :
    List (TargetsSpec × TaskSpec) :=
  if task.aggregate || task.consumes.length ≤ 1 then [(targets, task)]
  else
    task.consumes.map (fun input =>
      (targets,
        { consumes := [input], depends_on := task.depends_on,
          not_before := task.not_before, aggregate := true,
          env := task.env, recipe := task.recipe }))

/-- Unit from unit.rs (lines 171-175): tasks, include handles, sub-units. -/
structure BuildUnit where
  tasks : List (TargetsSpec × TaskSpec)
  includes : List (Nat × Nat)
  sub_units : List String

/-- Unit::decompose (unit.rs lines 213-240). -/
def unitDecompose (u : BuildUnit) :
    List (List (TargetsSpec × TaskSpec)) × List (Nat × Nat) :=
  (u.tasks.map (fun p => decomposeTask p.1 p.2), u.includes)

/-- Claim C8: Unit::decompose replaces every non-aggregate task with more
than one consumed input by one task per input, each consuming exactly that
input, marked aggregate, and sharing depends_on, not_before, env, recipe
and the targets; aggregate tasks and tasks with at most one input are kept
unchanged. -/
theorem c8_decompose_fanout :
    (∀ (targets : TargetsSpec) (task : TaskSpec),
      (task.aggregate = false → 1 < task.consumes.length →
        decomposeTask targets task =
          task.consumes.map (fun input =>
            (targets,
              { consumes := [input], depends_on := task.depends_on,
                not_before := task.not_before, aggregate := true,
                env := task.env, recipe := task.recipe }))) ∧
      (task.aggregate = true ∨ task.consumes.length ≤ 1 →
        decomposeTask targets task = [(targets, task)])) ∧
    (∀ u : BuildUnit,
      (unitDecompose u).1 = u.tasks.map (fun p => decomposeTask p.1 p.2) ∧
      (unitDecompose u).2 = u.includes) := by
  refine ⟨fun targets task => ⟨fun h1 h2 => ?_, fun h => ?_⟩, fun u => ⟨rfl, rfl⟩⟩
  · simp [decomposeTask, h1, Nat.not_le.mpr h2]
  · rcases h with h | h <;> simp [decomposeTask, h]

theorem c8_decompose_fanout_witness :
    decomposeTask (TargetsSpec.single ⟨("%f.o")⟩)
      { consumes := [PrerequisiteSpec.named ("a.c") false,
                     PrerequisiteSpec.named ("b.c") false],
        depends_on := [], not_before := [], aggregate := false,
        env := [], recipe := [] } =
      [(TargetsSpec.single ⟨("%f.o")⟩,
        { consumes := [PrerequisiteSpec.named ("a.c") false],
          depends_on := [], not_before := [], aggregate := true,
          env := [], recipe := [] }),
       (TargetsSpec.single ⟨("%f.o")⟩,
        { consumes := [PrerequisiteSpec.named ("b.c") false],
          depends_on := [], not_before := [], aggregate := true,
          env := [], recipe := [] })] := by
  have h := (c8_decompose_fanout.1 (TargetsSpec.single ⟨("%f.o")⟩)
    { consumes := [PrerequisiteSpec.named ("a.c") false,
                   PrerequisiteSpec.named ("b.c") false],
      depends_on := [], not_before := [], aggregate := false,
      env := [], recipe := [] }).1 rfl (by decide)
  exact h.trans (by rfl)

/- ===================================================================
   lib.rs : the task graph builder (TaskList::new) and the staleness
   evaluator (TaskList::retain_out_of_date)

   lib.rs carries its own pre-refactor copies of the task types: its
   PrerequisiteSpec has no optional flag, targets are concrete path
   strings, and Task keeps targets, upstream and downstream edges.  The
   embedded types below carry exactly the data those functions consult
   (env, recipe and the consumed-input payload are carried through the
   pipeline unchanged and never read by ordering or staleness decisions,
   so they are left out of the embedded records).  Each emitted task is
   tagged with its global index in the flattened spec vector; the tag is
   pure bookkeeping and is threaded through the pipeline unchanged.
   =================================================================== -/

/-- Targets from lib.rs (lines 230-234): one concrete path or several. -/
inductive TargetsO where
  | single : String → TargetsO
  | multi : List String → TargetsO
deriving DecidableEq

/-- Target iteration order (Targets::iter in lib.rs). -/
def targetsToList : TargetsO → List String
  | TargetsO.single p => [p]
  | TargetsO.multi ps => ps

/-- PrerequisiteSpec from lib.rs (lines 112-115): a named path or a
TargetSpecHandle (task index within the unit, target index). -/
inductive PrereqSpecO where
  | named : String → PrereqSpecO
  | handle : Nat → Nat → PrereqSpecO
deriving DecidableEq

/-- The resolved Prerequisite from lib.rs (lines 106-110): an external
named file or a global task handle. -/
inductive PrereqO where
  | named : String → PrereqO
  | handle : Nat → PrereqO
deriving DecidableEq

/-- The prerequisite lists of TaskSpec from lib.rs (lines 145-151). -/
structure SpecTaskO where
  consumes : List PrereqSpecO
  depends_on : List PrereqSpecO
  not_before : List PrereqSpecO
deriving DecidableEq

/-- A decomposed Unit as consumed by TaskList::new: its task vector and
its extra (target, prerequisite) pairs from add_prerequisite. -/
structure UnitO where
  tasks : List (TargetsO × SpecTaskO)
  prereqs : List (String × String)

/-- A resolved Task from lib.rs (lines 538-546), restricted to the fields
read by the ordering and staleness code. -/
structure TaskO where
  targets : TargetsO
  upstream : List PrereqO
  downstream : List Nat
deriving DecidableEq

/-- A placeholder task used only for out-of-bounds getD defaults that the
(always in-bounds) loop indices never reach. -/
def dummyTaskO : TaskO := { targets := TargetsO.multi [], upstream := [], downstream := [] }

/-- Flattening of the units' task lists with each task paired with its
unit's global task offset (the scan in lib.rs lines 570-581). -/
def flattenGo : List UnitO → Nat → List (TargetsO × SpecTaskO × Nat)
  | [], _ => []
  | u :: rest, count =>
    (u.tasks.map (fun p => (p.1, p.2, count))) ++ flattenGo rest (count + u.tasks.length)

/-- The target_lut entries (lib.rs lines 585-595): every concrete target
path mapped to its (task index, target index). -/
def lutEntries (targets : List TargetsO) : List (String × Nat × Nat) :=
  (targets.enum).flatMap (fun ti =>
    ((targetsToList ti.2).enum).map (fun gi => (gi.2, ti.1, gi.1)))

/-- HashMap lookup: collecting an iterator lets later duplicate keys
overwrite earlier ones, so the last matching entry wins. -/
def lutGet (entries : List (String × Nat × Nat)) (p : String) : Option (Nat × Nat) :=
  match entries.reverse.find? (fun e => e.1 = p) with
  | some e => some e.2
  | none => none

/-- Point update of a list element. -/
def modifyAt {α : Type} (l : List α) (i : Nat) (f : α → α) : List α :=
  l.enum.map (fun p => if p.1 = i then f p.2 else p.2)

/-- Merging of the extra prerequisites (lib.rs lines 597-609): each
(target, prerequisite) pair whose target is a known concrete target path
appends a named prerequisite to that task's depends_on list. -/
def mergePrereqs (lut : List (String × Nat × Nat)) (specs : List (SpecTaskO × Nat))
    (prs : List (String × String)) : List (SpecTaskO × Nat) :=
  prs.foldl (fun specs pr =>
    match lutGet lut pr.1 with
    | some ti =>
      modifyAt specs ti.1 (fun so =>
        ({ so.1 with depends_on := so.1.depends_on ++ [PrereqSpecO.named pr.2] }, so.2))
    | none => specs) specs

/-- Prerequisite resolution (lib.rs lines 617-638): a handle resolves
against the unit offset; a named path resolves to a handle when it is a
known target, and otherwise to an external name under the target
directory. -/
def resolvePre (lut : List (String × Nat × Nat)) (pfx : String) (offset : Nat) :
    PrereqSpecO → PrereqO
  | PrereqSpecO.handle ti _ => PrereqO.handle (ti + offset)
  | PrereqSpecO.named p =>
    match lutGet lut p with
    | some ti => PrereqO.handle ti.1
    | none => PrereqO.named (pathPushStr pfx p)

/-- The upstream list of one task: consumes, then depends_on, then
not_before (lib.rs lines 640-655). -/
def upstreamOf (lut : List (String × Nat × Nat)) (pfx : String) (offset : Nat)
    (sp : SpecTaskO) : List PrereqO :=
  (sp.consumes ++ sp.depends_on ++ sp.not_before).map (resolvePre lut pfx offset)

/-- The downstream edges of task u: every task s (in resolution order)
pushes itself once per handle prerequisite that resolves to u (lib.rs
lines 634-636). -/
def downstreamsOf (ups : List (List PrereqO)) (u : Nat) : List Nat :=
  ups.enum.flatMap (fun sl =>
    sl.2.flatMap (fun pr => if pr = PrereqO.handle u then [sl.1] else []))

/-- Stages 1 to 5 of TaskList::new (lib.rs lines 561-678): flatten,
index targets, merge extra prerequisites, resolve upstream edges and
derive downstream edges. -/
def resolveTasks (pfx : String) (units : List UnitO) : List TaskO :=
  let flat := flattenGo units 0
  let targets := flat.map (fun t => t.1)
  let lut := lutEntries targets
  let specs0 := flat.map (fun t => (t.2.1, t.2.2))
  let specs := mergePrereqs lut specs0 (units.flatMap (fun u => u.prereqs))
  let ups := specs.map (fun so => upstreamOf lut pfx so.2 so.1)
  (List.range specs.length).map (fun s =>
    { targets := targets.getD s (TargetsO.multi []),
      upstream := ups.getD s [],
      downstream := downstreamsOf ups s })

/-- Does a prerequisite refer to another task? -/
def isHandlePre : PrereqO → Bool
  | PrereqO.handle _ => true
  | PrereqO.named _ => false

/-- Leaf-task extraction (lib.rs lines 680-699): tasks with no handle
prerequisite are moved to the output seed; the others stay behind as
occupied slots. -/
def seedTasks (ts : List TaskO) : List (Nat × TaskO) × List (Option (Nat × TaskO)) :=
  (ts.enum.filter (fun p => !(p.2.upstream.any isHandlePre)),
   ts.enum.map (fun p => if p.2.upstream.any isHandlePre then some p else none))

/-- The wave loop of TaskList::new (lib.rs lines 701-719), including the
s = e + 1 update after each wave exactly as written in the source.  Each
wave appends at least one task or the loop terminates, so the task count
plus two is an exact fuel. -/
def waveLoop (fuel : Nat) (unordered : List (Option (Nat × TaskO)))
    (tasks : List (Nat × TaskO)) (s e : Nat) : List (Nat × TaskO) :=
  match fuel with
  | 0 => tasks
  | fuel + 1 =>
    if s < tasks.length then
      let step := (List.range' s (e - s)).foldl
        (fun (acc : List (Option (Nat × TaskO)) × List (Nat × TaskO)) i =>
          ((acc.2.getD i (0, dummyTaskO)).2.downstream).foldl
            (fun (acc2 : List (Option (Nat × TaskO)) × List (Nat × TaskO)) d =>
              match acc2.1.getD d none with
              | some t => (acc2.1.set d none, acc2.2 ++ [t])
              | none => acc2) acc) (unordered, tasks)
      waveLoop fuel step.1 step.2 (e + 1) step.2.length
    else tasks

/-- TaskList::new (lib.rs lines 561-723): resolve, seed with the leaf
tasks, then run the wave loop.  Every emitted task is tagged with its
global index in the flattened spec vector. -/
def taskListNew (pfx : String) (units : List UnitO) : List (Nat × TaskO) :=
  let ts := resolveTasks pfx units
  let seed := seedTasks ts
  waveLoop (ts.length + 2) seed.2 seed.1 0 seed.1.length

/-- CakeError from lib.rs (lines 523-536) restricted to the staleness
evaluator; boundsViolation models the Rust panic raised by the
modification_times[handle.index] lookup when the index is out of
bounds. -/
inductive CakeErr where
  | ioError : String → CakeErr
  | prerequisiteMissing : String → CakeErr
  | noLastModifiedTime : String → CakeErr
  | boundsViolation : CakeErr
deriving DecidableEq

/-- The modified_time closure of retain_out_of_date (lib.rs lines
739-749): any fs::metadata failure is PrerequisiteMissing, a modified()
failure is NoLastModifiedTime. -/
def modifiedTime (fs : FS) (p : String) : Except CakeErr Time :=
  match fs p with
  | FileStat.notFound => .error (CakeErr.prerequisiteMissing p)
  | FileStat.ioErr => .error (CakeErr.prerequisiteMissing p)
  | FileStat.statOk none => .error (CakeErr.noLastModifiedTime p)
  | FileStat.statOk (some t) => .ok t

/-- The max fold over optional accumulators (lib.rs lines 757-764). -/
def maxCombine (acc : Option Time) (t : Time) : Option Time :=
  match acc with
  | none => some t
  | some r => some (max t r)

/-- The upstream fold of retain_out_of_date (lib.rs lines 735-764): named
prerequisites are stat'ed, handle prerequisites read the already-recorded
modification time (skipping a recorded none), and contributions fold with
max. -/
def upstreamModTime (fs : FS) (mts : List (Option Time)) :
    List PrereqO → Option Time → Except CakeErr (Option Time)
  | [], acc => .ok acc
  | pr :: rest, acc =>
    match pr with
    | PrereqO.named p =>
      match modifiedTime fs p with
      | .error e => .error e
      | .ok t => upstreamModTime fs mts rest (maxCombine acc t)
    | PrereqO.handle i =>
      match mts.get? i with
      | none => .error CakeErr.boundsViolation
      | some none => upstreamModTime fs mts rest acc
      | some (some t) => upstreamModTime fs mts rest (maxCombine acc t)

/-- The accumulator combination of the target fold (lib.rs lines
789-799): a missing target poisons the result to none, otherwise times
fold with max. -/
def combineTarget (acc : Option (Option Time)) (t : Option Time) : Option (Option Time) :=
  match acc with
  | none => some t
  | some r =>
    some (match r, t with
      | some r, some t => some (max t r)
      | _, _ => none)

/-- The target fold of retain_out_of_date (lib.rs lines 771-799): a
missing target contributes none, any other stat failure is IoError, a
modified() failure is NoLastModifiedTime. -/
def targetFold (fs : FS) : List String → Option (Option Time) → Except CakeErr (Option (Option Time))
  | [], acc => .ok acc
  | p :: rest, acc =>
    match fs p with
    | FileStat.notFound => targetFold fs rest (combineTarget acc none)
    | FileStat.ioErr => .error (CakeErr.ioError p)
    | FileStat.statOk none => .error (CakeErr.noLastModifiedTime p)
    | FileStat.statOk (some t) => targetFold fs rest (combineTarget acc (some t))

/-- The target modification time of one task, with the unwrap_or(None) of
lib.rs line 802 for a task with no targets. -/
def targetModTime (fs : FS) (tgts : TargetsO) : Except CakeErr (Option Time) :=
  match targetFold fs (targetsToList tgts) none with
  | .error e => .error e
  | .ok acc => .ok (acc.getD none)

/-- The per-task body of retain_out_of_date (lib.rs lines 733-820):
upstream time first, then target time, then the staleness decision table;
the returned pair is the recorded modification time and whether the task
is emitted as stale. -/
def evalTask (fs : FS) (now : Time) (mts : List (Option Time)) (task : TaskO) :
    Except CakeErr (Option Time × Bool) :=
  match upstreamModTime fs mts task.upstream none with
  | .error e => .error e
  | .ok u =>
    match targetModTime fs task.targets with
    | .error e => .error e
    | .ok t =>
      match t, u with
      | some tt, some uu =>
        if tt < uu then .ok (some now, true) else .ok (some tt, false)
      | some tt, none => .ok (some tt, false)
      | none, _ => .ok (some now, true)

/-- The filter_map loop of retain_out_of_date: evaluate each task in
order, pushing its recorded time and collecting the emitted indices. -/
def retainGo (fs : FS) (now : Time) :
    List TaskO → Nat → List (Option Time) → List Nat → Except CakeErr (List Nat)
  | [], _, _, emitted => .ok emitted
  | task :: rest, idx, mts, emitted =>
    match evalTask fs now mts task with
    | .error e => .error e
    | .ok r =>
      retainGo fs now rest (idx + 1) (mts ++ [r.1])
        (if r.2 then emitted ++ [idx] else emitted)

/-- TaskList::retain_out_of_date (lib.rs lines 725-824), returning the
positions of the emitted stale tasks. -/
def retainOutOfDate (fs : FS) (now : Time) (tasks : List TaskO) : Except CakeErr (List Nat) :=
  retainGo fs now tasks 0 [] []

/-- The original task indices referenced by a task's handle
prerequisites. -/
def handleUpstreams (t : TaskO) : List Nat :=
  t.upstream.filterMap (fun pr =>
    match pr with
    | PrereqO.handle u => some u
    | PrereqO.named _ => none)

/-- Topological soundness of the tagged emitted list: every handle
prerequisite of the task at a position refers to a task emitted at a
strictly earlier position. -/
def topoSound (tagged : List (Nat × TaskO)) : Bool :=
  tagged.enum.all (fun pq =>
    (handleUpstreams pq.2.2).all (fun u =>
      (tagged.take pq.1).any (fun p => p.1 == u)))

/-- One widening step of leaf reachability: add every task with a handle
prerequisite pointing into the current set. -/
def reachStep (ts : List TaskO) (cur : List Nat) : List Nat :=
  cur ++ ((List.range ts.length).filter (fun j =>
    !(cur.contains j) &&
      ((handleUpstreams (ts.getD j dummyTaskO)).any (fun u => cur.contains u))))

/-- The tasks reachable from the leaf tasks along downstream edges:
iterate the widening step once per task. -/
def reachableFromLeaves (ts : List TaskO) : List Nat :=
  (List.range ts.length).foldl (fun cur _ => reachStep ts cur)
    ((List.range ts.length).filter (fun j =>
      (handleUpstreams (ts.getD j dummyTaskO)).isEmpty))

/-- Every handle prerequisite of the task at each emitted position points
strictly below that position: exactly the condition under which the
modification_times[handle.index] lookup of retain_out_of_date is in
bounds. -/
def handlesInBounds (tasks : List TaskO) : Bool :=
  tasks.enum.all (fun it =>
    (handleUpstreams it.2).all (fun h => decide (h < it.1)))

/-- A three-task chain a → b → c, declared in dependency order in one
unit: task 1 consumes task 0's target, task 2 consumes task 1's
target. -/
def chain3U : List UnitO :=
  [{ tasks :=
      [(TargetsO.single ("a"),
        { consumes := [], depends_on := [], not_before := [] }),
       (TargetsO.single ("b"),
        { consumes := [PrereqSpecO.named ("a")], depends_on := [], not_before := [] }),
       (TargetsO.single ("c"),
        { consumes := [PrereqSpecO.named ("b")], depends_on := [], not_before := [] })],
     prereqs := [] }]

/-- A diamond: task 0 is a leaf, task 1 consumes the targets of tasks 0
and 2, task 2 consumes the target of task 0. -/
def diamondU : List UnitO :=
  [{ tasks :=
      [(TargetsO.single ("a"),
        { consumes := [], depends_on := [], not_before := [] }),
       (TargetsO.single ("c"),
        { consumes := [PrereqSpecO.named ("a"), PrereqSpecO.named ("b")],
          depends_on := [], not_before := [] }),
       (TargetsO.single ("b"),
        { consumes := [PrereqSpecO.named ("a")], depends_on := [], not_before := [] })],
     prereqs := [] }]

/-- A forward reference: task 0 consumes by name the target produced by
task 1. -/
def ex4U : List UnitO :=
  [{ tasks :=
      [(TargetsO.single ("x"),
        { consumes := [PrereqSpecO.named ("a")], depends_on := [], not_before := [] }),
       (TargetsO.single ("a"),
        { consumes := [], depends_on := [], not_before := [] })],
     prereqs := [] }]

/-- Claim C1 fails on the code: on the three-task chain the emitted list
is [task 0, task 1] although task 2 is reachable from the leaf task 0
(the wave loop restarts at e + 1 instead of e and skips the first task
appended in each wave), and on the diamond the emitted order places the
upstream task 2 after its downstream task 1. -/
theorem c1_taskListNew_violates_topological_claim :
    (taskListNew ("") chain3U).map (fun p => p.1) = [0, 1] ∧
    (reachableFromLeaves (resolveTasks ("") chain3U)).contains 2 = true ∧
    topoSound (taskListNew ("") diamondU) = false ∧
    (taskListNew ("") diamondU).map (fun p => p.1) = [0, 1, 2] := by
  refine ⟨by rfl, by rfl, by rfl, by rfl⟩

/-- Claim C4 fails on the code: TaskList::new reorders tasks without
remapping handle indices, so on ex4U the emitted list is [task 1, task 0]
while task 0 still holds the handle index 1; evaluating it at position 1
reads modification_times[1] with only one entry recorded, which panics in
the source (modelled as boundsViolation). -/
theorem c4_handle_lookup_out_of_bounds :
    handlesInBounds ((taskListNew ("") ex4U).map (fun p => p.2)) = false ∧
    retainOutOfDate (fun _ => FileStat.statOk (some 1)) 0
      ((taskListNew ("") ex4U).map (fun p => p.2)) =
      .error CakeErr.boundsViolation := by
  refine ⟨by rfl, by rfl⟩

theorem combineTarget_none (acc : Option (Option Time)) :
    combineTarget acc none = some none := by
  cases acc with
  | none => rfl
  | some r => cases r <;> rfl

theorem targetFold_sticky (fs : FS) (l : List String) (res : Option (Option Time))
    (h : targetFold fs l (some none) = .ok res) : res = some none := by
  induction l with
  | nil => simpa [targetFold] using h.symm
  | cons p rest ih =>
    rw [targetFold] at h
    cases hp : fs p <;> rw [hp] at h
    · exact ih (by simpa [combineTarget_none] using h)
    · exact absurd h (by simp)
    · rename_i mt
      cases mt with
      | none => exact absurd h (by simp)
      | some t => exact ih (by simpa [combineTarget] using h)

theorem targetFold_missing (fs : FS) (l : List String) (acc : Option (Option Time))
    (res : Option (Option Time)) (h : targetFold fs l acc = .ok res)
    (hex : ∃ p ∈ l, fs p = FileStat.notFound) : res = some none := by
  induction l generalizing acc with
  | nil => simp at hex
  | cons p rest ih =>
    rw [targetFold] at h
    obtain ⟨q, hq, hfs⟩ := hex
    rcases List.mem_cons.mp hq with hq | hq
    · subst hq
      rw [hfs] at h
      exact targetFold_sticky fs rest res (by simpa [combineTarget_none] using h)
    · cases hp : fs p <;> rw [hp] at h
      · exact targetFold_sticky fs rest res (by simpa [combineTarget_none] using h)
      · exact absurd h (by simp)
      · rename_i mt
        cases mt with
        | none => exact absurd h (by simp)
        | some t => exact ih _ h ⟨q, hq, hfs⟩

/-- Claim C2: for a task whose upstream and target folds succeed with
values U and T, a missing target file forces T to none; T = none makes
the task stale with now recorded; T = some t with no contributing
upstream time, or with maximum upstream time at most t, keeps the task
fresh with t recorded; and T = some t with maximum upstream time
exceeding t makes the task stale with now recorded. -/
theorem c2_staleness_decision (fs : FS) (now : Time) (mts : List (Option Time))
    (task : TaskO) (U T : Option Time)
    (hU : upstreamModTime fs mts task.upstream none = .ok U)
    (hT : targetModTime fs task.targets = .ok T) :
    ((∃ p ∈ targetsToList task.targets, fs p = FileStat.notFound) → T = none) ∧
    (T = none → evalTask fs now mts task = .ok (some now, true)) ∧
    (∀ t, T = some t → (U = none ∨ ∃ u, U = some u ∧ u ≤ t) →
      evalTask fs now mts task = .ok (some t, false)) ∧
    (∀ t u, T = some t → U = some u → t < u →
      evalTask fs now mts task = .ok (some now, true)) := by
  refine ⟨fun hex => ?_, fun h => ?_, fun t ht hle => ?_, fun t u ht hu hlt => ?_⟩
  · rw [targetModTime] at hT
    cases h' : targetFold fs (targetsToList task.targets) none <;> rw [h'] at hT
    · exact absurd hT (by simp)
    · rename_i acc
      have : acc = some none := targetFold_missing fs _ none acc h' hex
      subst this
      simpa using hT.symm
  · subst h
    cases U <;> simp [evalTask, hU, hT]
  · subst ht
    rcases hle with h | ⟨u, hu, hle⟩
    · subst h
      simp [evalTask, hU, hT]
    · subst hu
      simp [evalTask, hU, hT, Nat.not_lt.mpr hle]
  · subst ht
    subst hu
    simp [evalTask, hU, hT, hlt]

theorem c2_staleness_decision_witness :
    evalTask
      (fun p => if p = ("s") then FileStat.statOk (some 9)
        else if p = ("o") then FileStat.statOk (some 5) else FileStat.notFound)
      7 []
      { targets := TargetsO.single ("o"), upstream := [PrereqO.named ("s")],
        downstream := [] } =
      .ok (some 7, true) :=
  (c2_staleness_decision
    (fun p => if p = ("s") then FileStat.statOk (some 9)
      else if p = ("o") then FileStat.statOk (some 5) else FileStat.notFound)
    7 []
    { targets := TargetsO.single ("o"), upstream := [PrereqO.named ("s")],
      downstream := [] }
    (some 9) (some 5) (by rfl) (by rfl)).2.2.2 5 9 rfl rfl (by decide)

/- ===================================================================
   Claim C3: handling of Named(path, optional) prerequisites during
   staleness evaluation.
   =================================================================== -/

/-- Modelled from the spec: the staleness evaluator that consumes the
optional flag of unit.rs's PrerequisiteSpec::Named(path, optional) is not
part of src/ — unit.rs (lines 8-23) only declares the flagged variant and
the cli crate only calls the evaluator, while the retain_out_of_date in
src/crates/core/src/lib.rs predates the flag and stores plain named
prerequisites.  Following section 4.7 of the specification: stat the
file; a missing file is skipped when optional and is PrerequisiteMissing
otherwise; a modified() failure on an existing file is
NoLastModifiedTime. -/
def specPrereqContribution (fs : FS) (p : String) (optional : Bool) :
    Except CakeErr (Option Time) :=
  match fs p with
  | FileStat.notFound =>
    if optional then .ok none else .error (CakeErr.prerequisiteMissing p)
  | FileStat.ioErr => .error (CakeErr.prerequisiteMissing p)
  | FileStat.statOk none => .error (CakeErr.noLastModifiedTime p)
  | FileStat.statOk (some t) => .ok (some t)

/-- Modelled from the spec: the upstream max-fold over named optional
prerequisites (section 4.7, step 1); a skipped prerequisite contributes
nothing. -/
def specUpstreamTime (fs : FS) :
    List (String × Bool) → Option Time → Except CakeErr (Option Time)
  | [], acc => .ok acc
  | pr :: rest, acc =>
    match specPrereqContribution fs pr.1 pr.2 with
    | .error e => .error e
    | .ok none => specUpstreamTime fs rest acc
    | .ok (some t) => specUpstreamTime fs rest (maxCombine acc t)

/-- Claim C3: a Named(path, optional) prerequisite whose file does not
exist is skipped (contributing nothing to the fold) when optional is
true and fails with PrerequisiteMissing when optional is false, and a
modified() failure on an existing file fails with NoLastModifiedTime. -/
theorem c3_optional_prerequisites (fs : FS) (p : String)
    (rest : List (String × Bool)) (acc : Option Time) :
    (fs p = FileStat.notFound →
      specPrereqContribution fs p true = .ok none ∧
      specPrereqContribution fs p false = .error (CakeErr.prerequisiteMissing p) ∧
      specUpstreamTime fs ((p, true) :: rest) acc = specUpstreamTime fs rest acc) ∧
    (fs p = FileStat.statOk none →
      ∀ optional, specPrereqContribution fs p optional =
        .error (CakeErr.noLastModifiedTime p)) := by
  refine ⟨fun h => ⟨?_, ?_, ?_⟩, fun h optional => ?_⟩
  · simp [specPrereqContribution, h]
  · simp [specPrereqContribution, h]
  · simp [specUpstreamTime, specPrereqContribution, h]
  · simp [specPrereqContribution, h]

theorem c3_optional_prerequisites_witness :
    specPrereqContribution (fun _ => FileStat.notFound) ("h.h") true = .ok none ∧
    specPrereqContribution (fun _ => FileStat.notFound) ("h.h") false =
      .error (CakeErr.prerequisiteMissing ("h.h")) ∧
    specUpstreamTime (fun _ => FileStat.notFound) [(("h.h"), true)] none = .ok none :=
  ⟨((c3_optional_prerequisites (fun _ => FileStat.notFound) ("h.h") [] none).1 rfl).1,
   ((c3_optional_prerequisites (fun _ => FileStat.notFound) ("h.h") [] none).1 rfl).2.1,
   ((c3_optional_prerequisites (fun _ => FileStat.notFound) ("h.h") [] none).1 rfl).2.2⟩

/- ===================================================================
   relativiser.rs (and the identical UnitBuilder::relativise of lib.rs):
   path relativisation
   =================================================================== -/

/-- A path component, mirroring std::path::Component: root, parent (..),
current (.), a Windows drive or UNC prefix, or a normal name. -/
inductive PComp where
  | rootDir : PComp
  | parentDir : PComp
  | curDir : PComp
  | drivePfx : String → PComp
  | normal : String → PComp
deriving DecidableEq

/-- RelativiseError from lib.rs (lines 393-399); pfxUnsupported is its
PrefixUnsupported variant.  relativiser.rs declares only Underflow. -/
inductive RelativiseErr where
  | underflow : RelativiseErr
  | pfxUnsupported : RelativiseErr
deriving DecidableEq

/-- Path::is_absolute: a leading root, or a drive prefix followed by a
root. -/
def isAbsPath : List PComp → Bool
  | PComp.rootDir :: _ => true
  | PComp.drivePfx _ :: PComp.rootDir :: _ => true
  | _ => false

/-- The component walk of relativise (relativiser.rs lines 31-42):
current-directory components are dropped, a parent component pops the
accumulated stack (Underflow when it is empty), everything else is
pushed. -/
def walkComps : List PComp → List PComp → Except RelativiseErr (List PComp)
  | [], acc => .ok acc
  | PComp.curDir :: rest, acc => walkComps rest acc
  | PComp.parentDir :: rest, acc =>
    if acc.isEmpty then .error RelativiseErr.underflow
    else walkComps rest acc.dropLast
  | c :: rest, acc => walkComps rest (acc ++ [c])

/-- The longest shared component run of relativise (relativiser.rs lines
44-49). -/
def sharedLen : List PComp → List PComp → Nat
  | a :: as, b :: bs => if a = b then sharedLen as bs + 1 else 0
  | _, _ => 0

/-- PathBuf::push of one component: a root truncates to the drive prefix
when there is one and otherwise replaces the path, a drive prefix
replaces the path, everything else is appended. -/
def pushComp (acc : List PComp) (c : PComp) : List PComp :=
  match c with
  | PComp.rootDir =>
    match acc with
    | PComp.drivePfx s :: _ => [PComp.drivePfx s, PComp.rootDir]
    | _ => [PComp.rootDir]
  | PComp.drivePfx s => [PComp.drivePfx s]
  | c => acc ++ [c]

/-- The result PathBuf of relativise, built by pushing components one at
a time (relativiser.rs lines 51-61). -/
def buildPath (cs : List PComp) : List PComp := cs.foldl pushComp []

/-- Relativiser::relativise (relativiser.rs lines 18-64): absolutise
against the base, normalise the components, strip the shared run with the
context, then one parent component per remaining context component
followed by the remaining path components. -/
def relativise (ctx base p : List PComp) : Except RelativiseErr (List PComp) :=
  let abs := if isAbsPath p then p else base ++ p
  match walkComps abs [] with
  | .error e => .error e
  | .ok comps =>
    .ok (buildPath (List.replicate (ctx.length - sharedLen comps ctx) PComp.parentDir ++
      comps.drop (sharedLen comps ctx)))

theorem walkComps_error (l : List PComp) (acc : List PComp) (e : RelativiseErr)
    (h : walkComps l acc = .error e) : e = RelativiseErr.underflow := by
  induction l generalizing acc with
  | nil => simp [walkComps] at h
  | cons c rest ih =>
    cases c with
    | curDir => exact ih acc (by simpa [walkComps] using h)
    | parentDir =>
      rw [walkComps] at h
      by_cases hacc : acc.isEmpty
      · simp [hacc] at h
        exact h.symm
      · exact ih acc.dropLast (by simpa [hacc] using h)
    | rootDir => exact ih _ (by simpa [walkComps] using h)
    | drivePfx s => exact ih _ (by simpa [walkComps] using h)
    | normal s => exact ih _ (by simpa [walkComps] using h)

/-- Claim C7 amended: relativise fails with Underflow exactly when the
component walk of the absolutised input pops an empty stack, and it never
returns PrefixUnsupported: drive and UNC prefix components are pushed
like ordinary components rather than rejected. -/
theorem c7_underflow_and_no_pfx_rejection :
    (∀ ctx base p, relativise ctx base p = .error RelativiseErr.underflow ↔
      walkComps (if isAbsPath p then p else base ++ p) [] =
        .error RelativiseErr.underflow) ∧
    (∀ ctx base p e, relativise ctx base p = .error e → e = RelativiseErr.underflow) ∧
    relativise [] [] [PComp.parentDir] = .error RelativiseErr.underflow := by
  refine ⟨fun ctx base p => ?_, fun ctx base p e he => ?_, by rfl⟩
  · rw [relativise]
    cases hw : walkComps (if isAbsPath p then p else base ++ p) [] with
    | error e =>
      have := walkComps_error _ _ _ hw
      subst this
      simp
    | ok comps => simp
  · rw [relativise] at he
    cases hw : walkComps (if isAbsPath p then p else base ++ p) [] with
    | error e' =>
      rw [hw] at he
      have h1 : (Except.error e' : Except RelativiseErr (List PComp)) =
        Except.error e := he
      injection h1 with h2
      subst h2
      exact walkComps_error _ _ _ hw
    | ok comps =>
      rw [hw] at he
      exact absurd he (by simp)

theorem c7_underflow_and_no_pfx_rejection_witness :
    relativise [] [] [PComp.parentDir] = .error RelativiseErr.underflow ∧
    RelativiseErr.underflow = RelativiseErr.underflow :=
  ⟨(c7_underflow_and_no_pfx_rejection.1 [] [] [PComp.parentDir]).mpr (by rfl),
   c7_underflow_and_no_pfx_rejection.2.1 [] [] [PComp.parentDir]
     RelativiseErr.underflow c7_underflow_and_no_pfx_rejection.2.2⟩

/-- Claim C7 as stated is false on the code: a path holding a drive
prefix component relativises successfully instead of failing with
PrefixUnsupported. -/
theorem c7_drive_pfx_counterexample :
    relativise [PComp.rootDir, PComp.normal ("p")] [PComp.rootDir, PComp.normal ("p")]
      [PComp.drivePfx ("C:"), PComp.rootDir, PComp.normal ("x")] =
      .ok [PComp.drivePfx ("C:"), PComp.rootDir, PComp.normal ("x")] ∧
    relativise [PComp.rootDir, PComp.normal ("p")] [PComp.rootDir, PComp.normal ("p")]
      [PComp.drivePfx ("C:"), PComp.rootDir, PComp.normal ("x")] ≠
      .error RelativiseErr.pfxUnsupported := by
  refine ⟨by rfl, fun h => ?_⟩
  have h0 : relativise [PComp.rootDir, PComp.normal ("p")] [PComp.rootDir, PComp.normal ("p")]
      [PComp.drivePfx ("C:"), PComp.rootDir, PComp.normal ("x")] =
      .ok [PComp.drivePfx ("C:"), PComp.rootDir, PComp.normal ("x")] := by rfl
  rw [h0] at h
  exact Except.noConfusion h

/-- Claim C6 as stated is false on the code: with a base directory below
the context root, relativising an already-relativised path prepends the
base again, so the second application differs from the first. -/
theorem c6_idempotence_counterexample :
    relativise [PComp.rootDir, PComp.normal ("p")]
      [PComp.rootDir, PComp.normal ("p"), PComp.normal ("sub")]
      [PComp.normal ("a.c")] = .ok [PComp.normal ("sub"), PComp.normal ("a.c")] ∧
    relativise [PComp.rootDir, PComp.normal ("p")]
      [PComp.rootDir, PComp.normal ("p"), PComp.normal ("sub")]
      [PComp.normal ("sub"), PComp.normal ("a.c")] =
      .ok [PComp.normal ("sub"), PComp.normal ("sub"), PComp.normal ("a.c")] ∧
    (PComp.normal ("sub") :: [PComp.normal ("a.c")] ≠
      [PComp.normal ("sub"), PComp.normal ("sub"), PComp.normal ("a.c")]) := by
  refine ⟨by rfl, by rfl, by decide⟩

/-- Shape invariant of walked component stacks: all-normal components, or
a leading root followed by normal components. -/
def goodList (l : List PComp) : Prop :=
  (∀ c ∈ l, ∃ s, c = PComp.normal s) ∨
  (∃ tl, l = PComp.rootDir :: tl ∧ ∀ c ∈ tl, ∃ s, c = PComp.normal s)

theorem walk_append_nodots (xs ys acc : List PComp)
    (h : ∀ c ∈ xs, c ≠ PComp.curDir ∧ c ≠ PComp.parentDir) :
    walkComps (xs ++ ys) acc = walkComps ys (acc ++ xs) := by
  induction xs generalizing acc with
  | nil => simp
  | cons c rest ih =>
    have hc := h c (by simp)
    have hrest : ∀ c ∈ rest, c ≠ PComp.curDir ∧ c ≠ PComp.parentDir :=
      fun c' hc' => h c' (by simp [hc'])
    cases c with
    | curDir => exact absurd rfl hc.1
    | parentDir => exact absurd rfl hc.2
    | rootDir =>
      rw [List.cons_append, walkComps, ih (acc ++ [PComp.rootDir]) hrest,
        List.append_assoc]
      all_goals first
        | rfl
        | (intro h'; exact PComp.noConfusion h')
    | drivePfx s =>
      rw [List.cons_append, walkComps, ih (acc ++ [PComp.drivePfx s]) hrest,
        List.append_assoc]
      all_goals first
        | rfl
        | (intro h'; exact PComp.noConfusion h')
    | normal s =>
      rw [List.cons_append, walkComps, ih (acc ++ [PComp.normal s]) hrest,
        List.append_assoc]
      all_goals first
        | rfl
        | (intro h'; exact PComp.noConfusion h')

theorem walk_parents (k : Nat) (ys acc : List PComp) (hk : k ≤ acc.length) :
    walkComps (List.replicate k PComp.parentDir ++ ys) acc =
      walkComps ys (acc.take (acc.length - k)) := by
  induction k generalizing acc with
  | zero => simp [List.take_length]
  | succ k ih =>
    have hne : acc.isEmpty = false := by
      cases acc
      · simp at hk
      · simp
    rw [List.replicate_succ, List.cons_append, walkComps]
    simp only [hne, Bool.false_eq_true, if_false]
    have hk' : k ≤ acc.dropLast.length := by
      rw [List.length_dropLast]
      omega
    rw [ih acc.dropLast hk', List.dropLast_eq_take, List.take_take,
      List.length_take]
    congr 2
    omega

theorem good_dropLast (l : List PComp) (h : goodList l) : goodList l.dropLast := by
  rcases h with h | ⟨tl, rfl, htl⟩
  · exact Or.inl (fun c hc => h c (List.dropLast_subset l hc))
  · cases tl with
    | nil => exact Or.inl (by simp)
    | cons t ts =>
      refine Or.inr ⟨(t :: ts).dropLast, by simp [List.dropLast], ?_⟩
      exact fun c hc => htl c (List.dropLast_subset _ hc)

theorem good_append (l : List PComp) (s : String) (h : goodList l) :
    goodList (l ++ [PComp.normal s]) := by
  rcases h with h | ⟨tl, rfl, htl⟩
  · refine Or.inl (fun c hc => ?_)
    rcases List.mem_append.mp hc with hc | hc
    · exact h c hc
    · simp at hc
      exact ⟨s, hc⟩
  · refine Or.inr ⟨tl ++ [PComp.normal s], by simp, fun c hc => ?_⟩
    rcases List.mem_append.mp hc with hc | hc
    · exact htl c hc
    · simp at hc
      exact ⟨s, hc⟩

theorem good_walk (xs : List PComp) :
    ∀ (acc res : List PComp),
    (∀ c ∈ xs, c ≠ PComp.rootDir ∧ (∀ s, c ≠ PComp.drivePfx s)) →
    goodList acc → walkComps xs acc = .ok res → goodList res := by
  induction xs with
  | nil =>
    intro acc res _ hacc h
    rw [walkComps] at h
    cases h
    exact hacc
  | cons c rest ih =>
    intro acc res hxs hacc h
    have hc := hxs c (by simp)
    have hrest : ∀ c' ∈ rest, c' ≠ PComp.rootDir ∧ (∀ s, c' ≠ PComp.drivePfx s) :=
      fun c' hc' => hxs c' (by simp [hc'])
    cases c with
    | curDir =>
      rw [walkComps] at h
      exact ih acc res hrest hacc h
    | parentDir =>
      rw [walkComps] at h
      by_cases he : acc.isEmpty
      · simp [he] at h
      · simp only [he, Bool.false_eq_true, if_false] at h
        exact ih acc.dropLast res hrest (good_dropLast acc hacc) h
    | rootDir => exact absurd rfl hc.1
    | drivePfx s => exact absurd rfl (hc.2 s)
    | normal s =>
      rw [walkComps] at h
      all_goals first
        | exact ih (acc ++ [PComp.normal s]) res hrest (good_append acc s hacc) h
        | (intro h'; exact PComp.noConfusion h')

theorem good_noDots (l : List PComp) (h : goodList l) :
    ∀ c ∈ l, c ≠ PComp.curDir ∧ c ≠ PComp.parentDir := by
  intro c hc
  rcases h with h | ⟨tl, rfl, htl⟩
  · obtain ⟨s, rfl⟩ := h c hc
    exact ⟨by simp, by simp⟩
  · rcases List.mem_cons.mp hc with rfl | hc
    · exact ⟨by simp, by simp⟩
    · obtain ⟨s, rfl⟩ := htl c hc
      exact ⟨by simp, by simp⟩

theorem sharedLen_take (a : List PComp) :
    ∀ b : List PComp, a.take (sharedLen a b) = b.take (sharedLen a b) := by
  induction a with
  | nil => intro b; cases b <;> rfl
  | cons x xs ih =>
    intro b
    cases b with
    | nil => rfl
    | cons y ys =>
      by_cases hxy : x = y
      · subst hxy
        simp [sharedLen, List.take_succ_cons, ih ys]
      · simp [sharedLen, hxy]

theorem sharedLen_le_left (a : List PComp) :
    ∀ b : List PComp, sharedLen a b ≤ a.length := by
  induction a with
  | nil => intro b; cases b <;> simp [sharedLen]
  | cons x xs ih =>
    intro b
    cases b with
    | nil => simp [sharedLen]
    | cons y ys =>
      by_cases hxy : x = y
      · simp [sharedLen, hxy]
        exact ih ys
      · simp [sharedLen, hxy]

theorem sharedLen_le_right (a : List PComp) :
    ∀ b : List PComp, sharedLen a b ≤ b.length := by
  induction a with
  | nil => intro b; cases b <;> simp [sharedLen]
  | cons x xs ih =>
    intro b
    cases b with
    | nil => simp [sharedLen]
    | cons y ys =>
      by_cases hxy : x = y
      · simp [sharedLen, hxy]
        exact ih ys
      · simp [sharedLen, hxy]

theorem pushComp_nil (c : PComp) : pushComp [] c = [c] := by
  cases c <;> rfl

theorem build_append (rest : List PComp) :
    ∀ acc : List PComp,
    (∀ c ∈ rest, c ≠ PComp.rootDir ∧ (∀ s, c ≠ PComp.drivePfx s)) →
    rest.foldl pushComp acc = acc ++ rest := by
  induction rest with
  | nil => intro acc _; simp
  | cons c cs ih =>
    intro acc h
    have hc := h c (by simp)
    have hcs : ∀ c' ∈ cs, c' ≠ PComp.rootDir ∧ (∀ s, c' ≠ PComp.drivePfx s) :=
      fun c' hc' => h c' (by simp [hc'])
    have hpush : pushComp acc c = acc ++ [c] := by
      cases c with
      | rootDir => exact absurd rfl hc.1
      | drivePfx s => exact absurd rfl (hc.2 s)
      | curDir => rfl
      | parentDir => rfl
      | normal s => rfl
    rw [List.foldl_cons, hpush, ih (acc ++ [c]) hcs, List.append_assoc]
    rfl

theorem buildPath_eq_self (cs : List PComp)
    (h : ∀ c ∈ cs.tail, c ≠ PComp.rootDir ∧ (∀ s, c ≠ PComp.drivePfx s)) :
    buildPath cs = cs := by
  cases cs with
  | nil => rfl
  | cons c rest =>
    rw [buildPath, List.foldl_cons, pushComp_nil, build_append rest [c] h]
    rfl

theorem sharedLen_nil_right (a : List PComp) : sharedLen a [] = 0 := by
  cases a <;> rfl

theorem relativise_ok_of_normal_drop (ctx comps : List PComp)
    (hctxnd : ∀ c ∈ ctx, c ≠ PComp.curDir ∧ c ≠ PComp.parentDir)
    (hdropn : ∀ c ∈ comps.drop (sharedLen comps ctx), ∃ s', c = PComp.normal s') :
    relativise ctx ctx
      (List.replicate (ctx.length - sharedLen comps ctx) PComp.parentDir ++
        comps.drop (sharedLen comps ctx)) =
      .ok (List.replicate (ctx.length - sharedLen comps ctx) PComp.parentDir ++
        comps.drop (sharedLen comps ctx)) := by
  have hs_le : sharedLen comps ctx ≤ ctx.length := sharedLen_le_right comps ctx
  have hk_le : ctx.length - sharedLen comps ctx ≤ ctx.length := Nat.sub_le _ _
  have habs : isAbsPath
      (List.replicate (ctx.length - sharedLen comps ctx) PComp.parentDir ++
        comps.drop (sharedLen comps ctx)) = false := by
    cases hk : ctx.length - sharedLen comps ctx with
    | zero =>
      simp only [hk, List.replicate_zero, List.nil_append]
      cases hd : comps.drop (sharedLen comps ctx) with
      | nil => rfl
      | cons c0 cs =>
        obtain ⟨s', rfl⟩ := hdropn c0 (by rw [hd]; simp)
        rfl
    | succ m => rfl
  have hraw_tail : ∀ c ∈ (List.replicate (ctx.length - sharedLen comps ctx)
      PComp.parentDir ++ comps.drop (sharedLen comps ctx)),
      c ≠ PComp.rootDir ∧ (∀ s', c ≠ PComp.drivePfx s') := by
    intro c hc
    rcases List.mem_append.mp hc with hc | hc
    · rw [List.eq_of_mem_replicate hc]
      exact ⟨by simp, fun s' => by simp⟩
    · obtain ⟨s', rfl⟩ := hdropn c hc
      exact ⟨by simp, fun s'' => by simp⟩
  have hdropnodots : ∀ c ∈ comps.drop (sharedLen comps ctx),
      c ≠ PComp.curDir ∧ c ≠ PComp.parentDir := by
    intro c hc
    obtain ⟨s', rfl⟩ := hdropn c hc
    exact ⟨by simp, by simp⟩
  have hwalk : walkComps
      (ctx ++ (List.replicate (ctx.length - sharedLen comps ctx) PComp.parentDir ++
        comps.drop (sharedLen comps ctx))) [] = .ok comps := by
    rw [walk_append_nodots ctx _ [] hctxnd, List.nil_append,
      walk_parents _ _ ctx hk_le]
    have hlk : ctx.length - (ctx.length - sharedLen comps ctx) = sharedLen comps ctx := by
      omega
    rw [hlk, ← sharedLen_take comps ctx]
    conv_lhs => rw [← List.append_nil (comps.drop (sharedLen comps ctx))]
    rw [walk_append_nodots _ [] _ hdropnodots, walkComps, List.take_append_drop]
  rw [relativise]
  simp only [habs, Bool.false_eq_true, if_false]
  rw [hwalk]
  show Except.ok (buildPath (List.replicate (ctx.length - sharedLen comps ctx)
    PComp.parentDir ++ comps.drop (sharedLen comps ctx))) = _
  rw [buildPath_eq_self _ (fun c hc => hraw_tail c (List.tail_subset _ hc))]

theorem raw_no_special (ctx comps : List PComp)
    (hdropn : ∀ c ∈ comps.drop (sharedLen comps ctx), ∃ s', c = PComp.normal s') :
    ∀ c ∈ (List.replicate (ctx.length - sharedLen comps ctx) PComp.parentDir ++
      comps.drop (sharedLen comps ctx)),
      c ≠ PComp.rootDir ∧ (∀ s', c ≠ PComp.drivePfx s') := by
  intro c hc
  rcases List.mem_append.mp hc with hc | hc
  · rw [List.eq_of_mem_replicate hc]
    exact ⟨by simp, fun s' => by simp⟩
  · obtain ⟨s', rfl⟩ := hdropn c hc
    exact ⟨by simp, fun s'' => by simp⟩

/-- Claim C6 amended: relativisation is idempotent when the relativiser's
base directory is the context root itself, the context is empty or an
absolute canonical path (a root followed by normal components), and the
input path contains no drive prefix and no non-leading root component.
With a base directory strictly below the context root the property fails
(see the counterexample). -/
theorem c6_relativise_idempotent_for_context_base
    (ctx p r : List PComp)
    (hctx : ctx = [] ∨ ∃ tl, ctx = PComp.rootDir :: tl ∧
      ∀ c ∈ tl, ∃ s, c = PComp.normal s)
    (hpd : ∀ c ∈ p, ∀ s, c ≠ PComp.drivePfx s)
    (hpr : ∀ c ∈ p.tail, c ≠ PComp.rootDir)
    (h : relativise ctx ctx p = .ok r) :
    relativise ctx ctx r = .ok r := by
  have hctxnd : ∀ c ∈ ctx, c ≠ PComp.curDir ∧ c ≠ PComp.parentDir := by
    rcases hctx with rfl | ⟨tl, rfl, htl⟩
    · simp
    · intro c hc
      rcases List.mem_cons.mp hc with rfl | hc
      · exact ⟨by simp, by simp⟩
      · obtain ⟨s, rfl⟩ := htl c hc
        exact ⟨by simp, by simp⟩
  rw [relativise] at h
  cases hw : walkComps (if isAbsPath p then p else ctx ++ p) [] with
  | error e =>
    rw [hw] at h
    exact absurd h (by simp)
  | ok comps =>
    rw [hw] at h
    have h' : Except.ok (buildPath (List.replicate (ctx.length - sharedLen comps ctx)
        PComp.parentDir ++ comps.drop (sharedLen comps ctx))) = Except.ok r := h
    have hbr := Except.ok.inj h'
    have hcomps : goodList comps := by
      by_cases hab : isAbsPath p
      · rw [if_pos hab] at hw
        cases p with
        | nil => simp [isAbsPath] at hab
        | cons c0 ptl =>
          have hptl : ∀ c ∈ ptl, c ≠ PComp.rootDir ∧ (∀ s, c ≠ PComp.drivePfx s) :=
            fun c hc => ⟨hpr c hc, fun s => hpd c (by simp [hc]) s⟩
          cases c0 with
          | rootDir =>
            rw [walkComps] at hw
            all_goals first
              | exact good_walk ptl ([] ++ [PComp.rootDir]) comps hptl
                  (Or.inr ⟨[], rfl, by simp⟩) hw
              | (intro h''; exact PComp.noConfusion h'')
          | drivePfx s0 => exact absurd rfl (hpd _ (by simp) s0)
          | curDir => simp [isAbsPath] at hab
          | parentDir => simp [isAbsPath] at hab
          | normal s0 => simp [isAbsPath] at hab
      · rw [if_neg hab] at hw
        rcases hctx with rfl | ⟨tl, rfl, htl⟩
        · rw [List.nil_append] at hw
          cases p with
          | nil =>
            rw [walkComps] at hw
            cases hw
            exact Or.inl (by simp)
          | cons c0 ptl =>
            have hptl : ∀ c ∈ ptl, c ≠ PComp.rootDir ∧ (∀ s, c ≠ PComp.drivePfx s) :=
              fun c hc => ⟨hpr c hc, fun s => hpd c (by simp [hc]) s⟩
            cases c0 with
            | rootDir => exact absurd rfl hab
            | drivePfx s0 => exact absurd rfl (hpd _ (by simp) s0)
            | curDir =>
              rw [walkComps] at hw
              exact good_walk ptl [] comps hptl (Or.inl (by simp)) hw
            | parentDir => simp [walkComps] at hw
            | normal s0 =>
              rw [walkComps] at hw
              all_goals first
                | exact good_walk ptl ([] ++ [PComp.normal s0]) comps hptl
                    (Or.inl (by intro c hc; simp at hc; exact ⟨s0, hc⟩)) hw
                | (intro h''; exact PComp.noConfusion h'')
        · have hpnr : ∀ c ∈ p, c ≠ PComp.rootDir := by
            intro c hc
            cases p with
            | nil => simp at hc
            | cons c0 ptl =>
              rcases List.mem_cons.mp hc with rfl | hc
              · intro he
                subst he
                exact hab rfl
              · exact hpr c hc
          rw [walk_append_nodots (PComp.rootDir :: tl) p [] (by
            intro c hc
            rcases List.mem_cons.mp hc with rfl | hc
            · exact ⟨by simp, by simp⟩
            · obtain ⟨s, rfl⟩ := htl c hc
              exact ⟨by simp, by simp⟩)] at hw
          exact good_walk p ([] ++ (PComp.rootDir :: tl)) comps
            (fun c hc => ⟨hpnr c hc, fun s => hpd c hc s⟩)
            (Or.inr ⟨tl, rfl, htl⟩) hw
    rcases hcomps with hcn | ⟨tlc, hceq, htlc⟩
    · have hdropn : ∀ c ∈ comps.drop (sharedLen comps ctx), ∃ s', c = PComp.normal s' :=
        fun c hc => hcn c (List.drop_subset _ _ hc)
      have hfix := relativise_ok_of_normal_drop ctx comps hctxnd hdropn
      have hba := buildPath_eq_self _
        (fun c hc => raw_no_special ctx comps hdropn c (List.tail_subset _ hc))
      have hr := hbr.symm.trans hba
      rw [hr]
      exact hfix
    · rcases hctx with rfl | ⟨tl, rfl, htl⟩
      · have hs0 : sharedLen comps ([] : List PComp) = 0 := sharedLen_nil_right comps
        have hbcomps : buildPath comps = comps := by
          refine buildPath_eq_self comps ?_
          intro c hc
          rw [hceq] at hc
          obtain ⟨s', rfl⟩ := htlc c hc
          exact ⟨by simp, fun s'' => by simp⟩
        have hr : r = comps := by
          rw [← hbr]
          simp only [hs0, List.length_nil, Nat.sub_zero, List.replicate_zero,
            List.nil_append, List.drop_zero]
          exact hbcomps
        rw [hr]
        have habs : isAbsPath comps = true := by rw [hceq]; rfl
        have hnd : ∀ c ∈ comps, c ≠ PComp.curDir ∧ c ≠ PComp.parentDir :=
          good_noDots comps (Or.inr ⟨tlc, hceq, htlc⟩)
        have hwk : walkComps comps [] = .ok comps := by
          conv_lhs => rw [← List.append_nil comps]
          rw [walk_append_nodots comps [] [] hnd, walkComps]
          simp
        rw [relativise]
        simp only [habs, if_true]
        rw [hwk]
        show Except.ok (buildPath (List.replicate (List.length ([] : List PComp) -
          sharedLen comps []) PComp.parentDir ++ comps.drop (sharedLen comps []))) = _
        simp only [hs0, List.length_nil, Nat.sub_zero, List.replicate_zero,
          List.nil_append, List.drop_zero]
        rw [hbcomps]
      · have hspos : 1 ≤ sharedLen comps (PComp.rootDir :: tl) := by
          rw [hceq]
          simp [sharedLen]
        obtain ⟨m, hm⟩ : ∃ m, sharedLen comps (PComp.rootDir :: tl) = m + 1 :=
          ⟨_, (Nat.succ_pred_eq_of_pos hspos).symm⟩
        have hdropn : ∀ c ∈ comps.drop (sharedLen comps (PComp.rootDir :: tl)),
            ∃ s', c = PComp.normal s' := by
          intro c hc
          rw [hm, hceq, List.drop_succ_cons] at hc
          exact htlc c (List.drop_subset _ _ hc)
        have hfix := relativise_ok_of_normal_drop (PComp.rootDir :: tl) comps hctxnd hdropn
        have hba := buildPath_eq_self _
          (fun c hc => raw_no_special (PComp.rootDir :: tl) comps hdropn c
            (List.tail_subset _ hc))
        have hr := hbr.symm.trans hba
        rw [hr]
        exact hfix

theorem c6_relativise_idempotent_for_context_base_witness :
    relativise [PComp.rootDir, PComp.normal ("p")] [PComp.rootDir, PComp.normal ("p")]
      [PComp.normal ("a.c")] = .ok [PComp.normal ("a.c")] :=
  c6_relativise_idempotent_for_context_base
    [PComp.rootDir, PComp.normal ("p")] [PComp.normal ("a.c")] [PComp.normal ("a.c")]
    (Or.inr ⟨[PComp.normal ("p")], rfl, by
      intro c hc
      simp at hc
      exact ⟨("p"), hc⟩⟩)
    (by
      intro c hc s
      simp at hc
      subst hc
      simp)
    (by
      intro c hc
      simp at hc)
    (by rfl)
